import Mathlib

/-!
Verification of the voiceover subsystem of the pdf-split-read-rag repository
(`voiceover_system.py`), against its natural-language specification.

Text is modelled as `List Char` (one Python character per entry).  Durations
are modelled as exact rationals (`ℚ`); the caption-timing claims of the spec are
stated in exact arithmetic, which the rational model realises.  Each
definition is a direct translation of the corresponding Python function;
helper scanners that model `re.split` are written as structurally recursive
(or fuel-indexed) functions so that they evaluate inside the kernel.
-/

namespace Voiceover

/-! ### Basic Python text primitives -/

/-- Python whitespace (the characters matched by `str.split`, `str.strip`
and the regex class backslash-s, restricted to ASCII). -/
def isSpace (c : Char) : Bool :=
  c = ' ' || c = '\t' || c = '\n' || c = '\r' || c = Char.ofNat 11 || c = Char.ofNat 12

/-- Sentence terminators used by the caption splitter regex class `[.!?]`. -/
def isTerm (c : Char) : Bool :=
  c = '.' || c = '!' || c = '?'

/-- Python `str.strip()`: drop leading and trailing whitespace. -/
def pyStrip (l : List Char) : List Char :=
  ((l.dropWhile isSpace).reverse.dropWhile isSpace).reverse

/-- Flush the (reversed) accumulator of the word scanner. -/
def flushW (acc : List Char) : List (List Char) :=
  if acc.isEmpty then [] else [acc.reverse]

/-- Worker for `pyWords`: scans characters, accumulating the current word
reversed in `acc`; whitespace flushes the accumulator. -/
def wordsAux : List Char → List Char → List (List Char)
  | [], acc => flushW acc
  | c :: rest, acc =>
    if isSpace c then flushW acc ++ wordsAux rest [] else wordsAux rest (c :: acc)

/-- Python `str.split()` with no argument: the whitespace-separated words,
with no empty entries. -/
def pyWords (l : List Char) : List (List Char) :=
  wordsAux l []

/-- Python `' '.join(xs)`. -/
def intercalateSpace : List (List Char) → List Char
  | [] => []
  | [a] => a
  | a :: b :: rest => a ++ ' ' :: intercalateSpace (b :: rest)

/-- The list contains at least one non-whitespace character. -/
def hasWord (l : List Char) : Bool :=
  l.any (fun c => !isSpace c)


/-! ### Caption timing: `_split_text_into_timed_sections`

The Python function (voiceover_system.py lines 265-362) splits the cleaned
text into sentences with `re.split` on the terminator class, strips and
filters them, greedily groups sentences into sections bounded by
`max_chars_per_section`, and assigns each section a share of the audio
duration proportional to its word count. -/

/-- Model of `re.split` with the pattern class `[.!?]+`: split on maximal runs of
sentence terminators.  The flag records whether the scanner is inside a
terminator run (so a run yields a single split). -/
def splitTermAux : List Char → List Char → Bool → List (List Char)
  | [], acc, _ => [acc.reverse]
  | c :: rest, acc, inRun =>
    if isTerm c then
      if inRun then splitTermAux rest acc true
      else acc.reverse :: splitTermAux rest [] true
    else splitTermAux rest (c :: acc) false

/-- The sentence list of the splitter (line 287-288): each raw piece is
stripped, and blank pieces are dropped (applied to the stripped text, as in
the source). -/
def sentencesOf (text : List Char) : List (List Char) :=
  ((splitTermAux (pyStrip text) [] false).map pyStrip).filter (fun s => !s.isEmpty)

/-- The greedy sentence-grouping loop of `_split_text_into_timed_sections`
(lines 293-315): accumulate sentences while the candidate section stays
within `max_chars_per_section`. -/
def groupSections (maxc : ℕ) : List (List Char) → List Char → List (List Char)
  | [], cur => if cur.isEmpty then [] else [cur]
  | s :: rest, cur =>
    let t := pyStrip (cur ++ ' ' :: s)
    if t.length ≤ maxc then groupSections maxc rest t
    else if cur.isEmpty then s :: groupSections maxc rest []
    else cur :: groupSections maxc rest s

/-- The sections list, including the degenerate fallback
`sections = [clean_text[:max_chars_per_section]]` (line 319). -/
def sectionsOf (text : List Char) (maxc : ℕ) : List (List Char) :=
  let gs := groupSections maxc (sentencesOf text) []
  if gs.isEmpty then [(pyStrip text).take maxc] else gs

/-- `total_words = sum(section_word_counts)` (line 328). -/
def totalWordsOf (text : List Char) (maxc : ℕ) : ℕ :=
  ((sectionsOf text maxc).map (fun s => (pyWords s).length)).sum

/-- One timed caption (the dict built at lines 344-350). -/
structure Caption where
  text : List Char
  start : ℚ
  stop : ℚ
  word_count : ℕ
  duration : ℚ
  deriving DecidableEq

/-- The timing loop (lines 333-352): each section receives
`duration * word_count / total_words` seconds, consecutively from `current_time`. -/
def buildTimed (dur : ℚ) (total : ℕ) : List (List Char × ℕ) → ℚ → List Caption
  | [], _ => []
  | (s, wc) :: rest, t =>
    let d := dur * ((wc : ℚ) / (total : ℚ))
    ⟨s, t, t + d, wc, d⟩ :: buildTimed dur total rest (t + d)

/-- `_split_text_into_timed_sections(text, duration, max_chars_per_section)`. -/
def splitTextIntoTimedSections (text : List Char) (dur : ℚ) (maxc : ℕ) : List Caption :=
  if text.isEmpty ∨ dur ≤ 0 then []
  else if (pyStrip text).isEmpty then []
  else if (sentencesOf text).isEmpty then []
  else
    buildTimed dur (totalWordsOf text maxc)
      ((sectionsOf text maxc).map (fun s => (s, (pyWords s).length))) 0


/-! ### TTS chunking: `_chunk_text_for_tts` (lines 484-541)

The Python function splits text into sentences with
`re.split` with a lookbehind for a terminator followed by whitespace, then
greedily accumulates sentences into
chunks bounded by `max_chars`; a sentence longer than `max_chars` is split
word by word. -/

/-- Model of `re.split` with pattern "lookbehind terminator, then one or more
whitespace": scan the text; `some (acc, prevTerm)` is the normal scanning
state (current piece reversed in `acc`, flag recording whether the previous
character was a sentence terminator); `none` is the state of consuming the
matched whitespace run. -/
def splitTTSGo : List Char → Option (List Char × Bool) → List (List Char)
  | [], some (acc, _) => [acc.reverse]
  | [], none => [[]]
  | c :: rest, some (acc, prevTerm) =>
    if prevTerm && isSpace c then acc.reverse :: splitTTSGo rest none
    else splitTTSGo rest (some (c :: acc, isTerm c))
  | c :: rest, none =>
    if isSpace c then splitTTSGo rest none
    else splitTTSGo rest (some ([c], isTerm c))

/-- The sentence split of the chunker (line 499). -/
def splitSentencesTTS (text : List Char) : List (List Char) :=
  splitTTSGo text (some ([], false))

/-- The inner word loop (lines 516-531): split an over-long sentence into
word-bounded chunks; returns the emitted chunks and the final `word_chunk`. -/
def wordLoop (maxc : ℕ) : List (List Char) → List Char → List (List Char) × List Char
  | [], wc => ([], wc)
  | w :: ws, wc =>
    let t := pyStrip (wc ++ ' ' :: w)
    if t.length ≤ maxc then wordLoop maxc ws t
    else
      match wordLoop maxc ws w with
      | (cs, fin) => (if wc.isEmpty then cs else wc :: cs, fin)

/-- The outer sentence loop (lines 501-539). -/
def chunkLoop (maxc : ℕ) : List (List Char) → List Char → List (List Char)
  | [], cur => if cur.isEmpty then [] else [cur]
  | s :: rest, cur =>
    let t := pyStrip (cur ++ ' ' :: s)
    if t.length ≤ maxc then chunkLoop maxc rest t
    else
      let pre := if cur.isEmpty then [] else [cur]
      if maxc < s.length then
        match wordLoop maxc (pyWords s) [] with
        | (cs, fin) => pre ++ cs ++ chunkLoop maxc rest fin
      else pre ++ chunkLoop maxc rest s

/-- `_chunk_text_for_tts(text, max_chars)`. -/
def chunkTextForTTS (text : List Char) (maxc : ℕ) : List (List Char) :=
  if text.length ≤ maxc then [text] else chunkLoop maxc (splitSentencesTTS text) []

/-! ### Pause-marker segmentation: `_process_script_with_pauses` (lines 658-819)

The script is split with
`re.split` on the case-insensitive pause-marker pattern (line 678-679),
each piece is stripped, empty pieces are dropped, and the synthesized
segments are concatenated with one silence clip between consecutive
segments. -/

/-- ASCII lowercasing, modelling the `re.IGNORECASE` flag on the literal
word "pause". -/
def toLowerA (c : Char) : Char :=
  if 'A' ≤ c ∧ c ≤ 'Z' then Char.ofNat (c.toNat + 32) else c

/-- Match a literal word case-insensitively at the head of the input,
returning the remainder. -/
def matchCI : List Char → List Char → Option (List Char)
  | [], l => some l
  | _ :: _, [] => none
  | p :: ps, c :: cs => if toLowerA c = p then matchCI ps cs else none

/-- First alternative of the pause regex: em-dash, optional whitespace,
"pause", optional whitespace, em-dash. -/
def matchDashPause (l : List Char) : Option (List Char) :=
  match l with
  | '—' :: rest =>
    match matchCI "pause".data (rest.dropWhile isSpace) with
    | some r2 =>
      match r2.dropWhile isSpace with
      | '—' :: r3 => some r3
      | _ => none
    | none => none
  | _ => none

/-- Second alternative: two hyphens, optional whitespace, "pause",
optional whitespace, two hyphens. -/
def matchHyphenPause (l : List Char) : Option (List Char) :=
  match l with
  | '-' :: '-' :: rest =>
    match matchCI "pause".data (rest.dropWhile isSpace) with
    | some r2 =>
      match r2.dropWhile isSpace with
      | '-' :: '-' :: r3 => some r3
      | _ => none
    | none => none
  | _ => none

/-- Try the two regex alternatives in order, as `re` does. -/
def matchPause (l : List Char) : Option (List Char) :=
  (matchDashPause l).orElse (fun _ => matchHyphenPause l)

/-- Fuel-indexed splitting scanner (the fuel makes it kernel-computable;
`l.length` fuel always suffices since a match consumes at least one
character). -/
def pauseSplitF : ℕ → List Char → List Char → List (List Char)
  | 0, l, acc => [acc.reverse ++ l]
  | _ + 1, [], acc => [acc.reverse]
  | f + 1, c :: rest, acc =>
    match matchPause (c :: rest) with
    | some r => acc.reverse :: pauseSplitF f r []
    | none => pauseSplitF f rest (c :: acc)

/-- `re.split(pause_pattern, script)`. -/
def pauseSplitRaw (script : List Char) : List (List Char) :=
  pauseSplitF script.length script []

/-- `segments = [seg.strip() for seg in re.split(...) if seg.strip()]`
(lines 679-680). -/
def pauseSegments (script : List Char) : List (List Char) :=
  ((pauseSplitRaw script).map pyStrip).filter (fun s => !s.isEmpty)

/-- The script with each pause marker replaced by a single space: the
"text content with pause markers removed" of the segmentation round-trip
claim, stated at the word level. -/
def removeMarkersF : ℕ → List Char → List Char
  | 0, l => l
  | _ + 1, [] => []
  | f + 1, c :: rest =>
    match matchPause (c :: rest) with
    | some r => ' ' :: removeMarkersF f r
    | none => c :: removeMarkersF f rest

def removePauseMarkers (script : List Char) : List Char :=
  removeMarkersF script.length script

/-- One part of the assembled audio track: a synthesized speech segment or
the inserted silence clip. -/
inductive TrackPart where
  | speech (txt : List Char) : TrackPart
  | silence : TrackPart
  deriving DecidableEq

/-- The ordered audio parts assembled by `_process_script_with_pauses`
(lines 716-751): each segment, with one silence clip after every segment
except the last. -/
def buildParts : List (List Char) → List TrackPart
  | [] => []
  | [s] => [.speech s]
  | s :: t :: rest => .speech s :: .silence :: buildParts (t :: rest)

/-- `total_duration` accumulated by `_process_script_with_pauses`
(lines 742, 750): the measured duration of each segment plus one configured
pause after every segment except the last. -/
def totalWithPauses (durs : List ℚ) (pauseDur : ℚ) : ℚ :=
  durs.sum + pauseDur * ((durs.length - 1 : ℕ) : ℚ)

/-- Caption construction inside `_create_video_with_audio` (lines 1253-1257):
the timed sections are computed once, from the whole processed script and the
total audio duration, with a format-dependent section width. -/
def videoCaptions (text : List Char) (dur : ℚ) (genType : String) : List Caption :=
  splitTextIntoTimedSections text dur
    (if genType = "shorts" ∨ genType = "youtube_shorts" then 120 else 200)


/-! ### The `generate_speech` request pipeline (lines 821-1171)

The orchestration is modelled as a pure function over an oracle supplying
the outcomes of the external calls (TTS synthesis, ffprobe duration
measurement, silence generation, audio concatenation, video render, WAV
conversion); the function returns the structured result together with the
ordered log of external calls it performed. -/

/-- One external process/network call made by the pipeline. -/
inductive ExtCall where
  | tts
  | probe
  | silenceGen
  | concatAudio
  | render
  | wavConvert
  deriving DecidableEq

/-- The structured result dict returned by `generate_speech`. -/
structure GenResult where
  success : Bool
  error : Option String
  duration : Option ℚ
  deriving DecidableEq

/-- Outcomes of the external calls, as seen by one request.  `waveformOk` and
`flatOk` describe the hypothetical fallback renders of the specification;
the code never consults them. -/
structure Oracle where
  clientOk : Bool
  ttsOk : ℕ → Bool
  partDur : ℕ → ℚ
  silenceOk : Bool
  concatOk : Bool
  renderOk : Bool
  waveformOk : Bool
  flatOk : Bool
  wavOk : Bool

/-- `self.available_voices` (line 28). -/
def availableVoices : List String :=
  ["alloy", "echo", "fable", "onyx", "nova", "shimmer"]

/-- `self.supported_formats` (line 29). -/
def supportedFormats : List String :=
  ["mp3", "wav", "mp4"]

/-- `self.max_input_chars` default (line 81). -/
def maxInputChars : ℕ := 3900

/-- `self.pause_silence_seconds` default (line 84). -/
def pauseSilenceSeconds : ℚ := 3 / 2

/-- `_preprocess_text_for_tts` (lines 252-263): replace percent signs by
" percent" and collapse whitespace. -/
def replacePercent : List Char → List Char
  | [] => []
  | c :: rest =>
    if c = '%' then ' ' :: ("percent".data ++ replacePercent rest)
    else c :: replacePercent rest

def preprocessTextForTTS (t : List Char) : List Char :=
  if t.isEmpty then t else intercalateSpace (pyWords (replacePercent t))

/-- The per-part synthesis loop: one TTS call and one probe per part, a
configured pause after every part except the last when `withPauses` holds;
a failed TTS call aborts the loop. -/
def synthEach (o : Oracle) (withPauses : Bool) (pauseDur : ℚ) :
    ℕ → List (List Char) → Option ℚ × List ExtCall
  | _, [] => (some 0, [])
  | i, _ :: rest =>
    if o.ttsOk i then
      match synthEach o withPauses pauseDur (i + 1) rest with
      | (some t, calls) =>
        (some (o.partDur i + (if withPauses && !rest.isEmpty then pauseDur else 0) + t),
          ExtCall.tts :: ExtCall.probe :: calls)
      | (none, calls) => (none, ExtCall.tts :: ExtCall.probe :: calls)
    else (none, [ExtCall.tts])

/-- `_create_video_with_audio` issues exactly one ffmpeg render invocation
and reports its outcome (lines 1309-1322); no fallback render is attempted. -/
def createVideoWithAudio (o : Oracle) : Bool :=
  o.renderOk

/-- Modelled from the spec: section 4.6 describes a renderer that, on
failure, retries with a waveform-visualization background and then a
flat-color background before giving up.  No such fallback exists in
`voiceover_system.py`; this definition follows the specification text and is
compared against the code model. -/
def renderWithFallbacksSpec (o : Oracle) : Bool :=
  o.renderOk || o.waveformOk || o.flatOk

/-- The audio-production phase of `generate_speech` (lines 916-1013): the
pause path for regular/standalone scripts containing at least two pause
segments, otherwise the chunked or single TTS path. -/
def synthPhase (o : Oracle) (ptext : List Char) (genType : String) :
    Option ℚ × List ExtCall :=
  if (genType = "regular" ∨ genType = "standalone") ∧ 2 ≤ (pauseSegments ptext).length then
    match synthEach o o.silenceOk pauseSilenceSeconds 0 (pauseSegments ptext) with
    | (some t, calls) =>
      if o.concatOk then (some t, ExtCall.silenceGen :: calls ++ [ExtCall.concatAudio])
      else (none, ExtCall.silenceGen :: calls ++ [ExtCall.concatAudio])
    | (none, calls) => (none, ExtCall.silenceGen :: calls)
  else if maxInputChars < ptext.length then
    match synthEach o false 0 0 (chunkTextForTTS ptext (maxInputChars - 100)) with
    | (some t, calls) =>
      if o.concatOk then (some t, calls ++ [ExtCall.concatAudio])
      else (none, calls ++ [ExtCall.concatAudio])
    | (none, calls) => (none, calls)
  else if o.ttsOk 0 then (some (o.partDur 0), [ExtCall.tts, ExtCall.probe])
  else (none, [ExtCall.tts])

/-- The output phase of `generate_speech` (lines 1025-1151): render to mp4,
convert to wav, or move the mp3; a failed audio phase is reported as-is. -/
def outputPhase (o : Oracle) (format : String) :
    Option ℚ × List ExtCall → GenResult × List ExtCall
  | (none, calls) => (⟨false, some "synthesis failed", none⟩, calls)
  | (some dur, calls) =>
    if format = "mp4" then
      if createVideoWithAudio o then (⟨true, none, some dur⟩, calls ++ [ExtCall.render])
      else (⟨false, some "Failed to create video - FFmpeg error", none⟩,
        calls ++ [ExtCall.render])
    else if format = "wav" then
      if o.wavOk then (⟨true, none, some dur⟩, calls ++ [ExtCall.wavConvert])
      else (⟨false, some "Failed to convert to WAV format", none⟩,
        calls ++ [ExtCall.wavConvert])
    else (⟨true, none, some dur⟩, calls)

/-- Audio production followed by output production. -/
def afterValidation (o : Oracle) (ptext : List Char) (format genType : String) :
    GenResult × List ExtCall :=
  outputPhase o format (synthPhase o ptext genType)

/-- `generate_speech` (lines 821-1171): configuration check and input
validation (lines 851-892), in source order, before any external call. -/
def generateSpeechModel (o : Oracle) (text : List Char) (voice : String) (speed : ℚ)
    (format genType : String) : GenResult × List ExtCall :=
  if !o.clientOk then (⟨false, some "OpenAI API key not configured", none⟩, [])
  else if text.isEmpty ∨ (pyStrip text).isEmpty then
    (⟨false, some "Text is required", none⟩, [])
  else if voice ∉ availableVoices then
    (⟨false, some "Invalid voice", none⟩, [])
  else if ¬((1/4 : ℚ) ≤ speed ∧ speed ≤ 4) then
    (⟨false, some "Speed must be between 0.25 and 4.0", none⟩, [])
  else if format ∉ supportedFormats then
    (⟨false, some "Unsupported format", none⟩, [])
  else afterValidation o (preprocessTextForTTS text) format genType


/-! ### Concrete inputs used by counterexamples and witnesses -/

/-- A text whose caption sections have word counts 1 and 24. -/
def exFloorText : List Char :=
  "Hi. word word word word word word word word word word word word word word word word word word word word word word word word.".data

/-- The second caption section of `exFloorText` (24 words, 119 characters). -/
def exLongSection : List Char :=
  "word word word word word word word word word word word word word word word word word word word word word word word word".data

/-- The first caption produced for `exFloorText` with a 2-second audio. -/
def capHi : Caption :=
  ⟨"Hi".data, 0, 2/25, 1, 2/25⟩

/-- The multi-segment example script of the specification (section 8). -/
def exMulti : List Char :=
  "Markets rallied today. — pause — Tech stocks led gains.".data

/-- The single caption text the code derives for `exMulti`. -/
def exMultiCaption : List Char :=
  "Markets rallied today — pause — Tech stocks led gains".data

/-- An oracle where everything succeeds except the primary video render. -/
def oracleRenderFail : Oracle :=
  ⟨true, fun _ => true, fun _ => 1, true, true, false, true, true, true⟩

/-- An oracle where every external call succeeds. -/
def oracleAllOk : Oracle :=
  ⟨true, fun _ => true, fun _ => 1, true, true, true, true, true, true⟩


/-! ### Lemmas about words, strip and joins -/

theorem flushW_ne_nil (acc : List Char) (h : acc ≠ []) : flushW acc ≠ [] := by
  simp [flushW, h]

theorem wordsAux_space_cons (c : Char) (hc : isSpace c = true) (l acc : List Char) :
    wordsAux (c :: l) acc = flushW acc ++ wordsAux l [] := by
  simp [wordsAux, hc]

theorem wordsAux_nonspace_cons (c : Char) (hc : isSpace c = false) (l acc : List Char) :
    wordsAux (c :: l) acc = wordsAux l (c :: acc) := by
  simp [wordsAux, hc]

/-- Splitting around an inserted whitespace character splits the word list. -/
theorem wordsAux_append_space (c : Char) (hc : isSpace c = true) :
    ∀ (a b acc : List Char),
      wordsAux (a ++ c :: b) acc = wordsAux a acc ++ wordsAux b []
  | [], b, acc => by
    simp [wordsAux, hc]
  | d :: a, b, acc => by
    by_cases hd : isSpace d
    · rw [List.cons_append, wordsAux_space_cons d hd, wordsAux_space_cons d hd,
        wordsAux_append_space c hc a b [], List.append_assoc]
    · rw [List.cons_append, wordsAux_nonspace_cons d (by simpa using hd),
        wordsAux_nonspace_cons d (by simpa using hd),
        wordsAux_append_space c hc a b (d :: acc)]

theorem pyWords_append_space (c : Char) (hc : isSpace c = true) (a b : List Char) :
    pyWords (a ++ c :: b) = pyWords a ++ pyWords b :=
  wordsAux_append_space c hc a b []

/-- Scanning a pure-whitespace tail only flushes the accumulator. -/
theorem wordsAux_allSpace (m : List Char) (hm : ∀ c ∈ m, isSpace c = true) :
    ∀ acc, wordsAux m acc = flushW acc := by
  induction m with
  | nil => intro acc; rfl
  | cons c m ih =>
    intro acc
    rw [wordsAux_space_cons c (hm c (by simp)) m acc,
      ih (fun d hd => hm d (by simp [hd]))]
    simp [flushW]

/-- Appending trailing whitespace does not change the word list. -/
theorem wordsAux_append_allSpace (m : List Char) (hm : ∀ c ∈ m, isSpace c = true) :
    ∀ (a acc : List Char), wordsAux (a ++ m) acc = wordsAux a acc
  | [], acc => by
    rw [List.nil_append, wordsAux_allSpace m hm acc]; rfl
  | d :: a, acc => by
    by_cases hd : isSpace d
    · rw [List.cons_append, wordsAux_space_cons d hd, wordsAux_space_cons d hd,
        wordsAux_append_allSpace m hm a []]
    · rw [List.cons_append, wordsAux_nonspace_cons d (by simpa using hd),
        wordsAux_nonspace_cons d (by simpa using hd),
        wordsAux_append_allSpace m hm a (d :: acc)]

/-- Prepending leading whitespace does not change the word list. -/
theorem pyWords_allSpace_append (m : List Char) (hm : ∀ c ∈ m, isSpace c = true)
    (b : List Char) : pyWords (m ++ b) = pyWords b := by
  induction m with
  | nil => rfl
  | cons c m ih =>
    rw [List.cons_append, pyWords, wordsAux_space_cons c (hm c (by simp))]
    simpa [flushW] using ih (fun d hd => hm d (by simp [hd]))

theorem mem_takeWhile_space (l : List Char) :
    ∀ c ∈ l.takeWhile isSpace, isSpace c = true := by
  intro c hc
  exact List.mem_takeWhile_imp hc

/-- `str.strip` does not change the word list. -/
theorem pyWords_pyStrip (l : List Char) : pyWords (pyStrip l) = pyWords l := by
  have h₁ : pyWords l = pyWords (l.dropWhile isSpace) := by
    conv_lhs => rw [← List.takeWhile_append_dropWhile (p := isSpace) (l := l)]
    exact pyWords_allSpace_append _ (mem_takeWhile_space l) _
  set m := l.dropWhile isSpace with hm
  have hdecomp : m = (m.reverse.dropWhile isSpace).reverse ++ (m.reverse.takeWhile isSpace).reverse := by
    conv_lhs => rw [← List.reverse_reverse m,
      ← List.takeWhile_append_dropWhile (p := isSpace) (l := m.reverse)]
    rw [List.reverse_append]
  have h₂ : pyWords m = pyWords ((m.reverse.dropWhile isSpace).reverse) := by
    conv_lhs => rw [hdecomp]
    exact wordsAux_append_allSpace _
      (fun c hc => mem_takeWhile_space m.reverse c (by simpa using hc)) _ []
  rw [h₁, h₂]; rfl

theorem hasWord_append (a b : List Char) :
    hasWord (a ++ b) = (hasWord a || hasWord b) := by
  simp [hasWord, List.any_append]

theorem hasWord_reverse (l : List Char) : hasWord l.reverse = hasWord l := by
  simp [hasWord]

/-- A pure-whitespace list has no word. -/
theorem hasWord_allSpace (m : List Char) (hm : ∀ c ∈ m, isSpace c = true) :
    hasWord m = false := by
  simp only [hasWord, List.any_eq_false]
  intro c hc
  simp [hm c hc]

theorem hasWord_pyStrip (l : List Char) : hasWord (pyStrip l) = hasWord l := by
  have h₁ : hasWord l = hasWord (l.dropWhile isSpace) := by
    conv_lhs => rw [← List.takeWhile_append_dropWhile (p := isSpace) (l := l)]
    rw [hasWord_append, hasWord_allSpace _ (mem_takeWhile_space l), Bool.false_or]
  set m := l.dropWhile isSpace with hm
  have hdecomp : m = (m.reverse.dropWhile isSpace).reverse ++ (m.reverse.takeWhile isSpace).reverse := by
    conv_lhs => rw [← List.reverse_reverse m,
      ← List.takeWhile_append_dropWhile (p := isSpace) (l := m.reverse)]
    rw [List.reverse_append]
  have h₂ : hasWord m = hasWord ((m.reverse.dropWhile isSpace).reverse) := by
    conv_lhs => rw [hdecomp]
    rw [hasWord_append, hasWord_reverse (m.reverse.takeWhile isSpace),
      hasWord_allSpace _ (mem_takeWhile_space m.reverse), Bool.or_false]
  rw [h₁, h₂]; rfl

/-- If a whitespace-free trim is nonempty, the original has a word. -/
theorem hasWord_of_pyStrip_ne_nil (l : List Char) (h : pyStrip l ≠ []) :
    hasWord l = true := by
  by_contra hw
  have hall : ∀ c ∈ l, isSpace c = true := by
    intro c hc
    by_contra hcs
    exact hw (List.any_eq_true.mpr ⟨c, hc, by simpa using hcs⟩)
  apply h
  have hdrop : l.dropWhile isSpace = [] := by
    rw [List.dropWhile_eq_nil_iff]
    intro c hc; exact hall c hc
  simp [pyStrip, hdrop]

/-- If the accumulator holds a pending word, the scanner emits at least one word. -/
theorem wordsAux_ne_nil_of_acc (l : List Char) :
    ∀ acc, acc ≠ [] → wordsAux l acc ≠ [] := by
  induction l with
  | nil => intro acc h; simpa [wordsAux] using flushW_ne_nil acc h
  | cons c rest ih =>
    intro acc h
    by_cases hc : isSpace c
    · rw [wordsAux_space_cons c hc]
      simp [flushW, h]
    · rw [wordsAux_nonspace_cons c (by simpa using hc)]
      exact ih (c :: acc) (by simp)

/-- A list with a word splits into at least one word. -/
theorem pyWords_ne_nil (l : List Char) (h : hasWord l = true) : pyWords l ≠ [] := by
  rw [pyWords]
  obtain ⟨c, hc, hcs⟩ := List.any_eq_true.mp h
  clear h
  induction l with
  | nil => cases hc
  | cons d rest ih =>
    by_cases hd : isSpace d
    · rw [wordsAux_space_cons d hd]
      rcases List.mem_cons.mp hc with rfl | hmem
      · simp_all
      · intro hcontra
        exact ih hmem ((List.append_eq_nil.mp hcontra).2)
    · rw [wordsAux_nonspace_cons d (by simpa using hd)]
      exact wordsAux_ne_nil_of_acc rest [d] (by simp)

/-- Every produced word is nonempty and whitespace-free. -/
theorem pyWords_sane (l : List Char) :
    ∀ w ∈ pyWords l, w ≠ [] ∧ ∀ c ∈ w, isSpace c = false := by
  rw [pyWords]
  suffices h : ∀ (l acc : List Char), (∀ c ∈ acc, isSpace c = false) →
      ∀ w ∈ wordsAux l acc, w ≠ [] ∧ ∀ c ∈ w, isSpace c = false by
    exact h l [] (by simp)
  intro l
  induction l with
  | nil =>
    intro acc hacc w hw
    by_cases ha : acc.isEmpty
    · simp [wordsAux, flushW, ha] at hw
    · have hw' : w = acc.reverse := by simpa [wordsAux, flushW, ha] using hw
      subst hw'
      constructor
      · simpa using (by simpa [List.isEmpty_iff] using ha : acc ≠ [])
      · intro c hc; exact hacc c (by simpa using hc)
  | cons c rest ih =>
    intro acc hacc w hw
    by_cases hc : isSpace c
    · rw [wordsAux_space_cons c hc] at hw
      rcases List.mem_append.mp hw with hflush | htail
      · by_cases ha : acc.isEmpty
        · simp [flushW, ha] at hflush
        · have hw' : w = acc.reverse := by simpa [flushW, ha] using hflush
          subst hw'
          constructor
          · simpa using (by simpa [List.isEmpty_iff] using ha : acc ≠ [])
          · intro d hd; exact hacc d (by simpa using hd)
      · exact ih [] (by simp) w htail
    · rw [wordsAux_nonspace_cons c (by simpa using hc)] at hw
      refine ih (c :: acc) ?_ w hw
      intro d hd
      rcases List.mem_cons.mp hd with rfl | hdm
      · simpa using hc
      · exact hacc d hdm

/-- A nonempty whitespace-free list is a single word. -/
theorem pyWords_single (w : List Char) (hne : w ≠ [])
    (hw : ∀ c ∈ w, isSpace c = false) : pyWords w = [w] := by
  rw [pyWords]
  suffices h : ∀ (w acc : List Char), (∀ c ∈ w, isSpace c = false) →
      wordsAux w acc = flushW (w.reverse ++ acc) by
    rw [h w [] hw]
    simp [flushW, hne]
  intro w
  induction w with
  | nil => intro acc _; simp [wordsAux, flushW]
  | cons c rest ih =>
    intro acc hall
    rw [wordsAux_nonspace_cons c (hall c (by simp)),
      ih (c :: acc) (fun d hd => hall d (by simp [hd]))]
    simp

/-- Joining with single spaces concatenates the word lists. -/
theorem pyWords_intercalateSpace (ls : List (List Char)) :
    pyWords (intercalateSpace ls) = (ls.map pyWords).flatten := by
  match ls with
  | [] => rfl
  | [a] => simp [intercalateSpace]
  | a :: b :: rest =>
    rw [intercalateSpace, pyWords_append_space ' ' (by decide) a,
      pyWords_intercalateSpace (b :: rest)]
    simp


/-! ### Lemmas about the caption splitter -/

/-- Every kept sentence contains a non-whitespace character. -/
theorem sentencesOf_hasWord (text : List Char) :
    ∀ s ∈ sentencesOf text, hasWord s = true := by
  intro s hs
  rw [sentencesOf] at hs
  obtain ⟨hmem, hne⟩ := List.mem_filter.mp hs
  obtain ⟨x, _, rfl⟩ := List.mem_map.mp hmem
  have hne' : pyStrip x ≠ [] := by simpa [List.isEmpty_iff] using hne
  rw [hasWord_pyStrip]
  exact hasWord_of_pyStrip_ne_nil x hne'

/-- Every section produced by the grouping loop contains a word, provided
all input sentences do and the running section is empty or does. -/
theorem groupSections_hasWord (maxc : ℕ) :
    ∀ (ss : List (List Char)) (cur : List Char),
      (∀ s ∈ ss, hasWord s = true) → (cur = [] ∨ hasWord cur = true) →
      ∀ t ∈ groupSections maxc ss cur, hasWord t = true := by
  intro ss
  induction ss with
  | nil =>
    intro cur _ hcur t ht
    by_cases hc : cur.isEmpty
    · simp [groupSections, hc] at ht
    · have ht' : t = cur := by simpa [groupSections, hc] using ht
      subst ht'
      rcases hcur with rfl | h
      · simp at hc
      · exact h
  | cons s rest ih =>
    intro cur hss hcur t ht
    have hs : hasWord s = true := hss s (by simp)
    have hrest : ∀ x ∈ rest, hasWord x = true := fun x hx => hss x (by simp [hx])
    rw [groupSections] at ht
    by_cases hlen : (pyStrip (cur ++ ' ' :: s)).length ≤ maxc
    · rw [if_pos hlen] at ht
      refine ih _ hrest (Or.inr ?_) t ht
      rw [hasWord_pyStrip, hasWord_append]
      have : hasWord (' ' :: s) = true := by
        simpa [hasWord_append] using (by simpa [hasWord] using hs : hasWord s = true)
      simp [this]
    · rw [if_neg hlen] at ht
      by_cases hc : cur.isEmpty
      · rw [if_pos hc] at ht
        rcases List.mem_cons.mp ht with rfl | hmem
        · exact hs
        · exact ih [] hrest (Or.inl rfl) t hmem
      · rw [if_neg hc] at ht
        rcases List.mem_cons.mp ht with rfl | hmem
        · rcases hcur with rfl | h
          · simp at hc
          · exact h
        · exact ih s hrest (Or.inr hs) t hmem

/-- The grouping loop emits at least one section when it has input. -/
theorem groupSections_ne_nil (maxc : ℕ) :
    ∀ (ss : List (List Char)) (cur : List Char),
      (∀ s ∈ ss, hasWord s = true) → (ss ≠ [] ∨ hasWord cur = true) →
      groupSections maxc ss cur ≠ [] := by
  intro ss
  induction ss with
  | nil =>
    intro cur _ hcur
    rcases hcur with h | h
    · exact absurd rfl h
    · have : ¬cur.isEmpty := by
        intro hc
        rw [List.isEmpty_iff.mp hc] at h
        simp [hasWord] at h
      simp [groupSections, this]
  | cons s rest ih =>
    intro cur hss _
    have hs : hasWord s = true := hss s (by simp)
    have hrest : ∀ x ∈ rest, hasWord x = true := fun x hx => hss x (by simp [hx])
    rw [groupSections]
    by_cases hlen : (pyStrip (cur ++ ' ' :: s)).length ≤ maxc
    · rw [if_pos hlen]
      refine ih _ hrest (Or.inr ?_)
      rw [hasWord_pyStrip, hasWord_append]
      have : hasWord (' ' :: s) = true := by
        simpa [hasWord_append] using (by simpa [hasWord] using hs : hasWord s = true)
      simp [this]
    · rw [if_neg hlen]
      by_cases hc : cur.isEmpty
      · rw [if_pos hc]; simp
      · rw [if_neg hc]; simp

/-- Decomposition of membership in the timing loop output. -/
theorem buildTimed_mem (dur : ℚ) (total : ℕ) :
    ∀ (ps : List (List Char × ℕ)) (t : ℚ) (c : Caption),
      c ∈ buildTimed dur total ps t →
      (c.text, c.word_count) ∈ ps ∧
        c.stop - c.start = dur * ((c.word_count : ℚ) / (total : ℚ)) := by
  intro ps
  induction ps with
  | nil => intro t c hc; cases hc
  | cons p rest ih =>
    intro t c hc
    obtain ⟨s, wc⟩ := p
    rcases List.mem_cons.mp hc with rfl | hmem
    · constructor
      · simp
      · ring
    · obtain ⟨h₁, h₂⟩ := ih _ c hmem
      exact ⟨by simp [h₁], h₂⟩

theorem buildTimed_ne_nil (dur : ℚ) (total : ℕ) (ps : List (List Char × ℕ))
    (t : ℚ) (h : ps ≠ []) : buildTimed dur total ps t ≠ [] := by
  cases ps with
  | nil => exact absurd rfl h
  | cons p rest => obtain ⟨s, wc⟩ := p; simp [buildTimed]

theorem buildTimed_head_start (dur : ℚ) (total : ℕ) (s : List Char) (wc : ℕ)
    (ps : List (List Char × ℕ)) (t : ℚ) :
    (buildTimed dur total ((s, wc) :: ps) t).head?.map Caption.start = some t := by
  simp [buildTimed]

theorem getLast?_cons_ne {α : Type} (a : α) (l : List α) (h : l ≠ []) :
    (a :: l).getLast? = l.getLast? := by
  cases l with
  | nil => exact absurd rfl h
  | cons b l' => exact List.getLast?_cons_cons

/-- The final caption ends at the start plus the full proportional budget. -/
theorem buildTimed_getLast_stop (dur : ℚ) (total : ℕ) :
    ∀ (ps : List (List Char × ℕ)) (t : ℚ), ps ≠ [] →
      (buildTimed dur total ps t).getLast?.map Caption.stop =
        some (t + dur * (((ps.map Prod.snd).sum : ℕ) : ℚ) / (total : ℚ)) := by
  intro ps
  induction ps with
  | nil => intro t h; exact absurd rfl h
  | cons p rest ih =>
    intro t _
    obtain ⟨s, wc⟩ := p
    cases rest with
    | nil =>
      simp [buildTimed]
      ring
    | cons q rest' =>
      rw [buildTimed]
      have hne : buildTimed dur total (q :: rest') (t + dur * ((wc : ℚ) / (total : ℚ))) ≠ [] :=
        buildTimed_ne_nil dur total _ _ (by simp)
      rw [getLast?_cons_ne _ _ hne, ih _ (by simp)]
      congr 1
      simp only [List.map_cons, List.sum_cons]
      push_cast
      ring

/-- Consecutive captions: each starts exactly where the previous ends, and
starts are non-decreasing (requires a non-negative total duration). -/
theorem buildTimed_chain (dur : ℚ) (total : ℕ) (hdur : 0 ≤ dur) :
    ∀ (ps : List (List Char × ℕ)) (t : ℚ),
      (buildTimed dur total ps t).Chain'
        (fun a b => a.stop ≤ b.start ∧ a.start ≤ b.start) := by
  intro ps
  induction ps with
  | nil => intro t; simp [buildTimed]
  | cons p rest ih =>
    intro t
    obtain ⟨s, wc⟩ := p
    cases rest with
    | nil => simp [buildTimed]
    | cons q rest' =>
      obtain ⟨s', wc'⟩ := q
      rw [buildTimed, buildTimed]
      refine List.Chain'.cons ?_ ?_
      · have hd : 0 ≤ dur * ((wc : ℚ) / (total : ℚ)) := by positivity
        constructor
        · simp
        · simp only
          linarith
      · have := ih (t + dur * ((wc : ℚ) / (total : ℚ)))
        rw [buildTimed] at this
        exact this

/-- Facts about the section list that several claims need: it is nonempty,
each section contains a word, and the total word count is positive. -/
theorem sectionsOf_facts (text : List Char) (maxc : ℕ)
    (hsent : sentencesOf text ≠ []) :
    sectionsOf text maxc ≠ [] ∧ (∀ s ∈ sectionsOf text maxc, hasWord s = true) ∧
      0 < totalWordsOf text maxc := by
  have hgs : groupSections maxc (sentencesOf text) [] ≠ [] :=
    groupSections_ne_nil maxc _ [] (sentencesOf_hasWord text) (Or.inl hsent)
  have hsec : sectionsOf text maxc = groupSections maxc (sentencesOf text) [] := by
    rw [sectionsOf]
    simp [List.isEmpty_iff, hgs]
  have hsecword : ∀ s ∈ sectionsOf text maxc, hasWord s = true := by
    rw [hsec]
    exact groupSections_hasWord maxc _ [] (sentencesOf_hasWord text) (Or.inl rfl)
  have hsecne : sectionsOf text maxc ≠ [] := by rw [hsec]; exact hgs
  refine ⟨hsecne, hsecword, ?_⟩
  rw [totalWordsOf]
  obtain ⟨s, hs⟩ := List.exists_mem_of_ne_nil _ hsecne
  have hw : pyWords s ≠ [] := pyWords_ne_nil s (hsecword s hs)
  have hlen : 0 < (pyWords s).length := List.length_pos.mpr hw
  calc 0 < (pyWords s).length := hlen
    _ ≤ _ := List.single_le_sum (by intro x _; positivity) _
          (List.mem_map.mpr ⟨s, hs, rfl⟩)

/-- Coverage of the caption timeline: when at least one sentence survives the
split and the duration is positive, the caption list is nonempty, begins at 0
and ends exactly at the audio duration.  Shared between several claims. -/
theorem splitText_coverage (text : List Char) (dur : ℚ) (maxc : ℕ)
    (hsent : sentencesOf text ≠ []) (hdur : 0 < dur) :
    splitTextIntoTimedSections text dur maxc ≠ [] ∧
      (splitTextIntoTimedSections text dur maxc).head?.map Caption.start = some 0 ∧
      (splitTextIntoTimedSections text dur maxc).getLast?.map Caption.stop = some dur := by
  have htext : ¬text.isEmpty := by
    intro h
    apply hsent
    rw [List.isEmpty_iff.mp h]
    rfl
  have hstrip : ¬(pyStrip text).isEmpty := by
    intro h
    apply hsent
    rw [sentencesOf, List.isEmpty_iff.mp h]
    rfl
  have hsent' : ¬(sentencesOf text).isEmpty := by
    simpa [List.isEmpty_iff] using hsent
  obtain ⟨hsecne, hsecword, htotal⟩ := sectionsOf_facts text maxc hsent
  have hunfold : splitTextIntoTimedSections text dur maxc =
      buildTimed dur (totalWordsOf text maxc)
        ((sectionsOf text maxc).map (fun s => (s, (pyWords s).length))) 0 := by
    rw [splitTextIntoTimedSections]
    rw [if_neg (by push_neg; exact ⟨by simpa using htext, by linarith⟩),
      if_neg hstrip, if_neg hsent']
  have hpne : (sectionsOf text maxc).map (fun s => (s, (pyWords s).length)) ≠ [] := by
    simpa using hsecne
  refine ⟨?_, ?_, ?_⟩
  · rw [hunfold]
    exact buildTimed_ne_nil _ _ _ _ hpne
  · rw [hunfold]
    obtain ⟨p, ps, hp⟩ := List.exists_cons_of_ne_nil hpne
    obtain ⟨s, wc⟩ := p
    rw [hp]
    exact buildTimed_head_start _ _ _ _ _ _
  · rw [hunfold, buildTimed_getLast_stop _ _ _ _ hpne]
    congr 1
    have hsum : ((sectionsOf text maxc).map (fun s => (s, (pyWords s).length))).map Prod.snd
        = (sectionsOf text maxc).map (fun s => (pyWords s).length) := by
      simp [List.map_map]
    rw [hsum]
    rw [show (((sectionsOf text maxc).map (fun s => (pyWords s).length)).sum : ℕ)
        = totalWordsOf text maxc from rfl]
    have : ((totalWordsOf text maxc : ℕ) : ℚ) ≠ 0 := Nat.cast_ne_zero.mpr htotal.ne'
    field_simp


/-! ### Word preservation through the TTS sentence splitter and chunker -/

/-- The words of a nonempty whitespace-free list form that single word,
so re-splitting the words of any list is the identity. -/
theorem flatten_map_pyWords_pyWords (l : List Char) :
    ((pyWords l).map pyWords).flatten = pyWords l := by
  have h : (pyWords l).map pyWords = (pyWords l).map (fun w => [w]) := by
    apply List.map_congr_left
    intro w hw
    obtain ⟨hne, hfree⟩ := pyWords_sane l w hw
    exact pyWords_single w hne hfree
  rw [h]
  induction pyWords l with
  | nil => rfl
  | cons w ws ih => simpa using ih

/-- The TTS sentence splitter drops only whitespace: the concatenated word
lists of the pieces are the words of the input. -/
theorem splitTTSGo_words :
    ∀ (l : List Char) (st : Option (List Char × Bool)),
      ((splitTTSGo l st).map pyWords).flatten =
        pyWords (match st with | some (acc, _) => acc.reverse ++ l | none => l) := by
  intro l
  induction l with
  | nil =>
    intro st
    match st with
    | some (acc, p) => simp [splitTTSGo]
    | none => simp [splitTTSGo, pyWords, wordsAux, flushW]
  | cons c rest ih =>
    intro st
    match st with
    | some (acc, prevTerm) =>
      by_cases h : prevTerm && isSpace c
      · have hsp : isSpace c = true := by
          have h' := h
          rw [Bool.and_eq_true] at h'
          exact h'.2
        rw [splitTTSGo, if_pos h]
        simp only [List.map_cons, List.flatten_cons]
        rw [ih none]
        exact (pyWords_append_space c hsp acc.reverse rest).symm
      · rw [splitTTSGo, if_neg h, ih (some (c :: acc, isTerm c))]
        simp
    | none =>
      by_cases h : isSpace c
      · rw [splitTTSGo, if_pos h, ih none]
        exact (pyWords_allSpace_append [c] (by simpa using h) rest).symm
      · rw [splitTTSGo, if_neg h, ih (some ([c], isTerm c))]
        rfl

/-- The word loop preserves words: emitted chunks followed by the pending
chunk carry exactly the pending words plus the input words. -/
theorem wordLoop_words (maxc : ℕ) :
    ∀ (ws : List (List Char)) (wc : List Char),
      ((wordLoop maxc ws wc).1.map pyWords).flatten ++ pyWords (wordLoop maxc ws wc).2 =
        pyWords wc ++ (ws.map pyWords).flatten := by
  intro ws
  induction ws with
  | nil => intro wc; simp [wordLoop]
  | cons w ws ih =>
    intro wc
    rw [wordLoop]
    by_cases h : (pyStrip (wc ++ ' ' :: w)).length ≤ maxc
    · rw [if_pos h, ih]
      rw [pyWords_pyStrip, pyWords_append_space ' ' (by decide)]
      simp
    · rw [if_neg h]
      have hrec := ih w
      cases hw : wordLoop maxc ws w with
      | mk cs fin =>
        rw [hw] at hrec
        by_cases hwc : wc.isEmpty
        · have : wc = [] := List.isEmpty_iff.mp hwc
          subst this
          simpa using hrec
        · simp [hwc, List.append_assoc, hrec]

/-- The sentence loop preserves words. -/
theorem chunkLoop_words (maxc : ℕ) :
    ∀ (ss : List (List Char)) (cur : List Char),
      ((chunkLoop maxc ss cur).map pyWords).flatten =
        pyWords cur ++ (ss.map pyWords).flatten := by
  intro ss
  induction ss with
  | nil =>
    intro cur
    by_cases h : cur.isEmpty
    · rw [List.isEmpty_iff.mp h]
      simp [chunkLoop]
      rfl
    · simp [chunkLoop, h]
  | cons s ss ih =>
    intro cur
    rw [chunkLoop]
    by_cases h : (pyStrip (cur ++ ' ' :: s)).length ≤ maxc
    · rw [if_pos h, ih, pyWords_pyStrip, pyWords_append_space ' ' (by decide)]
      simp
    · rw [if_neg h]
      have hpre : (((if cur.isEmpty then ([] : List (List Char)) else [cur])).map pyWords).flatten
          = pyWords cur := by
        by_cases hc : cur.isEmpty
        · rw [List.isEmpty_iff.mp hc]
          simp [hc]
          rfl
        · simp [hc]
      by_cases hlong : maxc < s.length
      · rw [if_pos hlong]
        have hwl := wordLoop_words maxc (pyWords s) []
        cases hw : wordLoop maxc (pyWords s) [] with
        | mk cs fin =>
          rw [hw] at hwl
          simp only [List.map_append, List.flatten_append, hpre, ih fin]
          have hsw : (cs.map pyWords).flatten ++ pyWords fin = pyWords s := by
            have h0 : pyWords ([] : List Char) = [] := rfl
            rw [h0, List.nil_append, flatten_map_pyWords_pyWords] at hwl
            exact hwl
          simp only [List.map_cons, List.flatten_cons, ← hsw]
          simp [List.append_assoc]
      · rw [if_neg hlong]
        simp only [List.map_append, List.flatten_append, hpre, ih s,
          List.map_cons, List.flatten_cons, List.append_assoc]

/-- Word preservation for the whole TTS chunker. -/
theorem chunkTextForTTS_words (text : List Char) (maxc : ℕ) :
    pyWords (intercalateSpace (chunkTextForTTS text maxc)) = pyWords text := by
  rw [chunkTextForTTS]
  by_cases h : text.length ≤ maxc
  · rw [if_pos h]; rfl
  · rw [if_neg h, pyWords_intercalateSpace, chunkLoop_words, splitSentencesTTS,
      splitTTSGo_words text (some ([], false))]
    rfl

/-! ### Size and emptiness invariants of the chunker -/

theorem length_dropWhile_le' (p : Char → Bool) :
    ∀ l : List Char, (List.dropWhile p l).length ≤ l.length := by
  intro l
  induction l with
  | nil => simp
  | cons c rest ih =>
    rw [List.dropWhile_cons]
    by_cases h : p c
    · rw [if_pos h]; exact ih.trans (by simp)
    · rw [if_neg h]

/-- Invariant of the word loop: every emitted chunk is nonempty, and every
emitted chunk and the pending chunk are within the bound or whitespace-free
(a single over-long word). -/
theorem wordLoop_inv (maxc : ℕ) :
    ∀ (ws : List (List Char)) (wc : List Char),
      (∀ w ∈ ws, w ≠ [] ∧ ∀ c ∈ w, isSpace c = false) →
      (wc.length ≤ maxc ∨ ∀ c ∈ wc, isSpace c = false) →
      (∀ c ∈ (wordLoop maxc ws wc).1,
          c ≠ [] ∧ (c.length ≤ maxc ∨ ∀ ch ∈ c, isSpace ch = false)) ∧
        ((wordLoop maxc ws wc).2.length ≤ maxc ∨
          ∀ ch ∈ (wordLoop maxc ws wc).2, isSpace ch = false) := by
  intro ws
  induction ws with
  | nil => intro wc _ hwc; exact ⟨by simp [wordLoop], by simpa [wordLoop] using hwc⟩
  | cons w ws ih =>
    intro wc hws hwc
    have hw : w ≠ [] ∧ ∀ c ∈ w, isSpace c = false := hws w (by simp)
    have hws' : ∀ x ∈ ws, x ≠ [] ∧ ∀ c ∈ x, isSpace c = false :=
      fun x hx => hws x (by simp [hx])
    rw [wordLoop]
    by_cases h : (pyStrip (wc ++ ' ' :: w)).length ≤ maxc
    · rw [if_pos h]
      exact ih _ hws' (Or.inl h)
    · rw [if_neg h]
      obtain ⟨hrec1, hrec2⟩ := ih w hws' (Or.inr hw.2)
      cases hrw : wordLoop maxc ws w with
      | mk cs fin =>
        rw [hrw] at hrec1 hrec2
        dsimp only
        refine ⟨?_, by simpa using hrec2⟩
        intro c hc
        by_cases hwcE : wc.isEmpty
        · rw [if_pos hwcE] at hc
          exact hrec1 c (by simpa using hc)
        · rw [if_neg hwcE] at hc
          rcases List.mem_cons.mp hc with rfl | hmem
          · exact ⟨by simpa [List.isEmpty_iff] using hwcE, hwc⟩
          · exact hrec1 c (by simpa using hmem)

/-- Invariant of the sentence loop. -/
theorem chunkLoop_inv (maxc : ℕ) :
    ∀ (ss : List (List Char)) (cur : List Char),
      (cur.length ≤ maxc ∨ ∀ c ∈ cur, isSpace c = false) →
      ∀ c ∈ chunkLoop maxc ss cur,
        c ≠ [] ∧ (c.length ≤ maxc ∨ ∀ ch ∈ c, isSpace ch = false) := by
  intro ss
  induction ss with
  | nil =>
    intro cur hcur c hc
    by_cases h : cur.isEmpty
    · simp [chunkLoop, h] at hc
    · have : c = cur := by simpa [chunkLoop, h] using hc
      subst this
      exact ⟨by simpa [List.isEmpty_iff] using h, hcur⟩
  | cons s ss ih =>
    intro cur hcur c hc
    rw [chunkLoop] at hc
    by_cases h : (pyStrip (cur ++ ' ' :: s)).length ≤ maxc
    · rw [if_pos h] at hc
      exact ih _ (Or.inl h) c hc
    · rw [if_neg h] at hc
      have hpre : ∀ x ∈ (if cur.isEmpty then ([] : List (List Char)) else [cur]),
          x ≠ [] ∧ (x.length ≤ maxc ∨ ∀ ch ∈ x, isSpace ch = false) := by
        intro x hx
        by_cases hcE : cur.isEmpty
        · simp [hcE] at hx
        · have : x = cur := by simpa [hcE] using hx
          subst this
          exact ⟨by simpa [List.isEmpty_iff] using hcE, hcur⟩
      by_cases hlong : maxc < s.length
      · rw [if_pos hlong] at hc
        obtain ⟨hwl1, hwl2⟩ := wordLoop_inv maxc (pyWords s) [] (pyWords_sane s) (Or.inl (by simp))
        cases hrw : wordLoop maxc (pyWords s) [] with
        | mk cs fin =>
          rw [hrw] at hwl1 hwl2 hc
          rcases List.mem_append.mp hc with hc' | hc'
          · rcases List.mem_append.mp hc' with hc'' | hc''
            · exact hpre c hc''
            · exact hwl1 c hc''
          · exact ih fin hwl2 c hc'
      · rw [if_neg hlong] at hc
        rcases List.mem_append.mp hc with hc' | hc'
        · exact hpre c hc'
        · exact ih s (Or.inl (by omega)) c hc'

/-! ### Word preservation through the pause-marker splitter -/

theorem matchCI_length :
    ∀ (ps l r : List Char), matchCI ps l = some r → r.length ≤ l.length := by
  intro ps
  induction ps with
  | nil => intro l r h; cases h; rfl
  | cons p ps ih =>
    intro l r h
    cases l with
    | nil => cases h
    | cons c cs =>
      rw [matchCI] at h
      by_cases hc : toLowerA c = p
      · rw [if_pos hc] at h
        exact (ih cs r h).trans (by simp)
      · rw [if_neg hc] at h; cases h

theorem matchDashPause_length (l r : List Char) (h : matchDashPause l = some r) :
    r.length < l.length := by
  unfold matchDashPause at h
  split at h
  case _ rest =>
    split at h
    case _ r2 hm =>
      split at h
      case _ r3 hd =>
        cases h
        have h1 : r2.length ≤ (rest.dropWhile isSpace).length := matchCI_length _ _ _ hm
        have h2 : (rest.dropWhile isSpace).length ≤ rest.length := length_dropWhile_le' _ _
        have h3 : (r2.dropWhile isSpace).length ≤ r2.length := length_dropWhile_le' _ _
        have h4 : ('—' :: r).length = (r2.dropWhile isSpace).length := by rw [hd]
        simp only [List.length_cons] at h4 ⊢
        omega
      case _ => cases h
    case _ => cases h
  case _ => cases h

theorem matchHyphenPause_length (l r : List Char) (h : matchHyphenPause l = some r) :
    r.length < l.length := by
  unfold matchHyphenPause at h
  split at h
  case _ rest =>
    split at h
    case _ r2 hm =>
      split at h
      case _ r3 hd =>
        cases h
        have h1 : r2.length ≤ (rest.dropWhile isSpace).length := matchCI_length _ _ _ hm
        have h2 : (rest.dropWhile isSpace).length ≤ rest.length := length_dropWhile_le' _ _
        have h3 : (r2.dropWhile isSpace).length ≤ r2.length := length_dropWhile_le' _ _
        have h4 : ('-' :: '-' :: r).length = (r2.dropWhile isSpace).length := by rw [hd]
        simp only [List.length_cons] at h4 ⊢
        omega
      case _ => cases h
    case _ => cases h
  case _ => cases h

theorem matchPause_length (l r : List Char) (h : matchPause l = some r) :
    r.length < l.length := by
  rw [matchPause] at h
  cases hd : matchDashPause l with
  | some x =>
    rw [hd] at h
    have : x = r := by simpa [Option.orElse] using h
    subst this
    exact matchDashPause_length l _ hd
  | none =>
    rw [hd] at h
    have : matchHyphenPause l = some r := by simpa [Option.orElse] using h
    exact matchHyphenPause_length l r this

/-- With sufficient fuel, the pieces of the pause split carry exactly the
words of the script with each marker replaced by a space. -/
theorem pauseSplitF_words :
    ∀ (f : ℕ) (l acc : List Char), l.length ≤ f →
      ((pauseSplitF f l acc).map pyWords).flatten =
        pyWords (acc.reverse ++ removeMarkersF f l) := by
  intro f
  induction f with
  | zero =>
    intro l acc hl
    have : l = [] := List.length_eq_zero.mp (Nat.le_zero.mp hl)
    subst this
    simp [pauseSplitF, removeMarkersF]
  | succ f ih =>
    intro l acc hl
    cases l with
    | nil => simp [pauseSplitF, removeMarkersF]
    | cons c rest =>
      rw [pauseSplitF, removeMarkersF]
      cases hm : matchPause (c :: rest) with
      | some r =>
        have hr : r.length ≤ f := by
          have := matchPause_length _ _ hm
          simp only [List.length_cons] at this hl
          omega
        simp only [List.map_cons, List.flatten_cons]
        rw [ih r [] hr, pyWords_append_space ' ' (by decide)]
        rfl
      | none =>
        have hr : rest.length ≤ f := by
          simp only [List.length_cons] at hl
          omega
        rw [ih rest (c :: acc) hr]
        simp

/-- Stripping each piece and dropping blank pieces does not change the words. -/
theorem flatten_words_stripFilter :
    ∀ ps : List (List Char),
      ((((ps.map pyStrip).filter (fun s => !s.isEmpty)).map pyWords)).flatten =
        (ps.map pyWords).flatten := by
  intro ps
  induction ps with
  | nil => rfl
  | cons p ps ih =>
    simp only [List.map_cons, List.filter_cons]
    by_cases h : (pyStrip p).isEmpty
    · have hp : pyWords p = [] := by
        rw [← pyWords_pyStrip, List.isEmpty_iff.mp h]; rfl
      simp [h, ih, hp]
    · simp only [h, Bool.not_false, if_true, List.map_cons, List.flatten_cons, ih,
        pyWords_pyStrip]

/-- Word preservation for the pause segmentation. -/
theorem pauseSegments_words (script : List Char) :
    pyWords (intercalateSpace (pauseSegments script)) =
      pyWords (removePauseMarkers script) := by
  rw [pauseSegments, pyWords_intercalateSpace, flatten_words_stripFilter,
    pauseSplitRaw, pauseSplitF_words script.length script [] le_rfl]
  rfl

/-! ### Structure of the assembled parts list -/

theorem buildParts_ne_nil (segs : List (List Char)) (h : segs ≠ []) :
    buildParts segs ≠ [] := by
  cases segs with
  | nil => exact absurd rfl h
  | cons s rest => cases rest <;> simp [buildParts]

theorem buildParts_head_speech (s : List Char) (rest : List (List Char)) :
    (buildParts (s :: rest)).head? = some (.speech s) := by
  cases rest <;> simp [buildParts]

/-- No two silence clips are adjacent in the assembled parts. -/
theorem buildParts_chain (segs : List (List Char)) :
    (buildParts segs).Chain' (fun a b => ¬(a = TrackPart.silence ∧ b = TrackPart.silence)) := by
  induction segs with
  | nil => simp [buildParts]
  | cons s rest ih =>
    cases rest with
    | nil => simp [buildParts]
    | cons t rest' =>
      rw [buildParts]
      rw [List.chain'_cons']
      constructor
      · intro y hy
        simp only [List.head?_cons, Option.mem_def, Option.some.injEq] at hy
        subst hy
        simp
      · rw [List.chain'_cons']
        constructor
        · intro y hy
          rw [buildParts_head_speech t rest'] at hy
          simp only [Option.mem_def, Option.some.injEq] at hy
          subst hy
          simp
        · exact ih

/-- The assembled parts never end with a silence clip. -/
theorem buildParts_getLast (segs : List (List Char)) :
    (buildParts segs).getLast? ≠ some TrackPart.silence := by
  induction segs with
  | nil => simp [buildParts]
  | cons s rest ih =>
    cases rest with
    | nil => simp [buildParts]
    | cons t rest' =>
      rw [buildParts]
      have hne : buildParts (t :: rest') ≠ [] := buildParts_ne_nil _ (by simp)
      rw [getLast?_cons_ne _ _ (List.cons_ne_nil _ _), getLast?_cons_ne _ _ hne]
      exact ih

/-- Every pause segment is nonempty, even after (re-)trimming. -/
theorem pauseSegments_sane (script : List Char) :
    ∀ s ∈ pauseSegments script, s ≠ [] ∧ pyStrip s ≠ [] := by
  intro s hs
  rw [pauseSegments] at hs
  obtain ⟨hmem, hne⟩ := List.mem_filter.mp hs
  obtain ⟨x, _, rfl⟩ := List.mem_map.mp hmem
  have hne' : pyStrip x ≠ [] := by simpa [List.isEmpty_iff] using hne
  refine ⟨hne', ?_⟩
  intro hcontra
  have hw : hasWord x = true := hasWord_of_pyStrip_ne_nil x hne'
  rw [← hasWord_pyStrip] at hw
  rw [← hasWord_pyStrip, hcontra] at hw
  simp [hasWord] at hw


/-! ### Lemmas about the pipeline model -/

/-- The synthesis loop never logs a render call. -/
theorem synthEach_no_render (o : Oracle) (w : Bool) (p : ℚ) :
    ∀ (ss : List (List Char)) (i : ℕ), ExtCall.render ∉ (synthEach o w p i ss).2 := by
  intro ss
  induction ss with
  | nil => intro i; simp [synthEach]
  | cons s rest ih =>
    intro i
    rw [synthEach]
    by_cases h : o.ttsOk i
    · rw [if_pos h]
      cases hr : synthEach o w p (i + 1) rest with
      | mk od calls =>
        have hmem : ExtCall.render ∉ calls := by
          have := ih (i + 1)
          rw [hr] at this
          exact this
        cases od <;> simp_all
    · rw [if_neg h]
      simp

/-- The audio-production phase never logs a render call. -/
theorem synthPhase_no_render (o : Oracle) (ptext : List Char) (genType : String) :
    ExtCall.render ∉ (synthPhase o ptext genType).2 := by
  rw [synthPhase]
  by_cases h1 : (genType = "regular" ∨ genType = "standalone") ∧
      2 ≤ (pauseSegments ptext).length
  · rw [if_pos h1]
    cases hr : synthEach o o.silenceOk pauseSilenceSeconds 0 (pauseSegments ptext) with
    | mk od calls =>
      have hmem : ExtCall.render ∉ calls := by
        have := synthEach_no_render o o.silenceOk pauseSilenceSeconds (pauseSegments ptext) 0
        rw [hr] at this
        exact this
      cases od with
      | none => simpa using hmem
      | some t =>
        by_cases hc : o.concatOk <;> simp_all
  · rw [if_neg h1]
    by_cases h2 : maxInputChars < ptext.length
    · rw [if_pos h2]
      cases hr : synthEach o false 0 0 (chunkTextForTTS ptext (maxInputChars - 100)) with
      | mk od calls =>
        have hmem : ExtCall.render ∉ calls := by
          have := synthEach_no_render o false 0 (chunkTextForTTS ptext (maxInputChars - 100)) 0
          rw [hr] at this
          exact this
        cases od with
        | none => simpa using hmem
        | some t =>
          by_cases hc : o.concatOk <;> simp_all
    · rw [if_neg h2]
      by_cases h3 : o.ttsOk 0 <;> simp [h3]


/-! ### The claims -/

/-- C1 counterexample: the text "." is non-empty after trimming and the
audio duration is positive, yet the caption-timing operation returns the
empty list (the sentence split drops terminator-only text), so the claimed
coverage fails as stated. -/
theorem C1_counterexample :
    pyStrip ".".data ≠ [] ∧ (0 : ℚ) < 1 ∧
      splitTextIntoTimedSections ".".data 1 120 = [] :=
  ⟨by decide, by norm_num, by decide⟩

/-- C1 (amended): for every text whose sentence split yields at least one
non-blank sentence (rather than every text non-empty after trimming) and
every positive audio duration, the caption list is non-empty, its first
caption starts at 0, and its last caption ends exactly at the audio
duration (exact rational arithmetic). -/
theorem C1_caption_coverage (text : List Char) (dur : ℚ) (maxc : ℕ)
    (hsent : sentencesOf text ≠ []) (hdur : 0 < dur) :
    splitTextIntoTimedSections text dur maxc ≠ [] ∧
      (splitTextIntoTimedSections text dur maxc).head?.map Caption.start = some 0 ∧
      (splitTextIntoTimedSections text dur maxc).getLast?.map Caption.stop = some dur :=
  splitText_coverage text dur maxc hsent hdur

theorem C1_caption_coverage_witness :
    sentencesOf "Hello world.".data ≠ [] ∧ (0 : ℚ) < 2 ∧
      (splitTextIntoTimedSections "Hello world.".data 2 120 ≠ [] ∧
        (splitTextIntoTimedSections "Hello world.".data 2 120).head?.map Caption.start =
          some 0 ∧
        (splitTextIntoTimedSections "Hello world.".data 2 120).getLast?.map Caption.stop =
          some 2) :=
  ⟨by decide, by norm_num,
    C1_caption_coverage "Hello world.".data 2 120 (by decide) (by norm_num)⟩

set_option maxRecDepth 20000 in
/-- Concrete evaluation of the caption splitter on `exFloorText`: two
sections of 1 and 24 words over a 2-second audio. -/
theorem exFloor_eval :
    splitTextIntoTimedSections exFloorText 2 120 =
      [⟨"Hi".data, 0, 2/25, 1, 2/25⟩, ⟨exLongSection, 2/25, 2, 24, 48/25⟩] := by
  have hsec : sectionsOf exFloorText 120 = ["Hi".data, exLongSection] := by decide
  have htw : totalWordsOf exFloorText 120 = 25 := by decide
  have hw1 : (pyWords "Hi".data).length = 1 := by decide
  have hw2 : (pyWords exLongSection).length = 24 := by decide
  rw [splitTextIntoTimedSections, if_neg (by decide), if_neg (by decide),
    if_neg (by decide), htw, hsec]
  simp only [List.map_cons, List.map_nil, hw1, hw2, buildTimed]
  norm_num [Caption.mk.injEq]

/-- C2 counterexample: with caption sections of 1 and 24 words and a
2-second audio, the first caption lasts 2/25 of a second, far below the
claimed 1.5-second floor, and it is not the final caption. -/
theorem C2_counterexample :
    (splitTextIntoTimedSections exFloorText 2 120).length = 2 ∧
      (splitTextIntoTimedSections exFloorText 2 120).head?.map
        (fun c => c.stop - c.start) = some (2/25) ∧
      (2 : ℚ)/25 < 3/2 := by
  rw [exFloor_eval]
  refine ⟨rfl, ?_, by norm_num⟩
  simp

/-- C2 (amended): the code enforces no 1.5-second minimum: every caption
simply receives `duration * word_count / total_words` seconds — positive
whenever the audio duration is positive, but arbitrarily small. -/
theorem C2_caption_duration (text : List Char) (dur : ℚ) (maxc : ℕ)
    (hdur : 0 < dur) (c : Caption)
    (hc : c ∈ splitTextIntoTimedSections text dur maxc) :
    0 < c.stop - c.start ∧
      c.stop - c.start = dur * ((c.word_count : ℚ) / (totalWordsOf text maxc : ℚ)) := by
  rw [splitTextIntoTimedSections] at hc
  by_cases h1 : text.isEmpty ∨ dur ≤ 0
  · rw [if_pos h1] at hc; cases hc
  · rw [if_neg h1] at hc
    by_cases h2 : (pyStrip text).isEmpty
    · rw [if_pos h2] at hc; cases hc
    · rw [if_neg h2] at hc
      by_cases h3 : (sentencesOf text).isEmpty
      · rw [if_pos h3] at hc; cases hc
      · rw [if_neg h3] at hc
        obtain ⟨hmem, heq⟩ := buildTimed_mem dur (totalWordsOf text maxc) _ 0 c hc
        obtain ⟨hsecne, hsecword, htotal⟩ := sectionsOf_facts text maxc
          (by simpa [List.isEmpty_iff] using h3)
        obtain ⟨s, hsmem, hpair⟩ := List.mem_map.mp hmem
        have h5 : (pyWords s).length = c.word_count := congrArg Prod.snd hpair
        have hwc : 0 < c.word_count := by
          rw [← h5]
          exact List.length_pos.mpr (pyWords_ne_nil s (hsecword s hsmem))
        refine ⟨?_, heq⟩
        rw [heq]
        have hdpos : (0 : ℚ) < (c.word_count : ℚ) / (totalWordsOf text maxc : ℚ) := by
          apply div_pos
          · exact_mod_cast hwc
          · exact_mod_cast htotal
        exact mul_pos hdur hdpos

theorem C2_caption_duration_witness :
    (0 : ℚ) < 2 ∧ capHi ∈ splitTextIntoTimedSections exFloorText 2 120 ∧
      (0 < capHi.stop - capHi.start ∧
        capHi.stop - capHi.start =
          2 * ((capHi.word_count : ℚ) / (totalWordsOf exFloorText 120 : ℚ))) := by
  have hmem : capHi ∈ splitTextIntoTimedSections exFloorText 2 120 := by
    rw [exFloor_eval]
    exact List.mem_cons_self _ _
  exact ⟨by norm_num, hmem,
    C2_caption_duration exFloorText 2 120 (by norm_num) capHi hmem⟩

/-- C3: the caption list has non-decreasing start times and is
non-overlapping: every adjacent pair satisfies `end ≤ next.start` (in fact
with equality) and `start ≤ next.start`. -/
theorem C3_caption_order (text : List Char) (dur : ℚ) (maxc : ℕ) :
    (splitTextIntoTimedSections text dur maxc).Chain'
      (fun a b => a.stop ≤ b.start ∧ a.start ≤ b.start) := by
  rw [splitTextIntoTimedSections]
  by_cases h1 : text.isEmpty ∨ dur ≤ 0
  · rw [if_pos h1]; simp
  · rw [if_neg h1]
    by_cases h2 : (pyStrip text).isEmpty
    · rw [if_pos h2]; simp
    · rw [if_neg h2]
      by_cases h3 : (sentencesOf text).isEmpty
      · rw [if_pos h3]; simp
      · rw [if_neg h3]
        apply buildTimed_chain
        push_neg at h1
        linarith [h1.2]

set_option maxRecDepth 20000 in
/-- Concrete evaluation of the video-caption construction on the
multi-segment example script: one caption spanning the whole timeline. -/
theorem exMulti_eval :
    videoCaptions exMulti (51/10) "regular" =
      [⟨exMultiCaption, 0, 51/10, 10, 51/10⟩] := by
  have hsec : sectionsOf exMulti 200 = [exMultiCaption] := by decide
  have htw : totalWordsOf exMulti 200 = 10 := by decide
  have hw : (pyWords exMultiCaption).length = 10 := by decide
  rw [videoCaptions, if_neg (by decide), splitTextIntoTimedSections,
    if_neg (by push_neg; exact ⟨by decide, by norm_num⟩), if_neg (by decide),
    if_neg (by decide), htw, hsec]
  simp only [List.map_cons, List.map_nil, hw, buildTimed]
  norm_num [Caption.mk.injEq]

set_option maxRecDepth 20000 in
/-- C4 counterexample: for the specification example (segment durations
2.0 s and 2.5 s, pause 0.6 s, total 5.1 s), the code computes captions once
from the whole script — pause markers included — over the total duration:
the resulting single caption contains the second segment text yet starts at
0, not at or after 2.6 s, so per-segment offsetting does not happen. -/
theorem C4_counterexample :
    pauseSegments exMulti =
      ["Markets rallied today.".data, "Tech stocks led gains.".data] ∧
      totalWithPauses [2, 5/2] (3/5) = 51/10 ∧
      videoCaptions exMulti (51/10) "regular" =
        [⟨exMultiCaption, 0, 51/10, 10, 51/10⟩] ∧
      List.IsInfix "Tech stocks led gains".data exMultiCaption ∧
      ¬((2 : ℚ) + 3/5 ≤ 0) :=
  ⟨by decide, by norm_num [totalWithPauses, List.sum_cons, List.sum_nil], exMulti_eval,
    ⟨"Markets rallied today — pause — ".data, [], by decide⟩, by norm_num⟩

/-- C4 (amended): caption timing is applied once to the entire script (pause
markers included) using the total measured duration — the sum of the segment
durations plus one configured pause between consecutive segments; the global
caption list spans exactly [0, total], with no per-segment invocation or
offsetting. -/
theorem C4_global_timeline (script : List Char) (durs : List ℚ) (pauseDur : ℚ)
    (genType : String) (hsent : sentencesOf script ≠ [])
    (hdur : 0 < totalWithPauses durs pauseDur) :
    videoCaptions script (totalWithPauses durs pauseDur) genType ≠ [] ∧
      (videoCaptions script (totalWithPauses durs pauseDur) genType).head?.map
        Caption.start = some 0 ∧
      (videoCaptions script (totalWithPauses durs pauseDur) genType).getLast?.map
        Caption.stop = some (totalWithPauses durs pauseDur) :=
  splitText_coverage script _ _ hsent hdur

theorem C4_global_timeline_witness :
    sentencesOf exMulti ≠ [] ∧ (0 : ℚ) < totalWithPauses [2, 5/2] (3/5) ∧
      (videoCaptions exMulti (totalWithPauses [2, 5/2] (3/5)) "regular" ≠ [] ∧
        (videoCaptions exMulti (totalWithPauses [2, 5/2] (3/5)) "regular").head?.map
          Caption.start = some 0 ∧
        (videoCaptions exMulti (totalWithPauses [2, 5/2] (3/5)) "regular").getLast?.map
          Caption.stop = some (totalWithPauses [2, 5/2] (3/5))) :=
  ⟨by decide, by norm_num [totalWithPauses, List.sum_cons, List.sum_nil],
    C4_global_timeline exMulti [2, 5/2] (3/5) "regular" (by decide)
      (by norm_num [totalWithPauses, List.sum_cons, List.sum_nil])⟩

/-- C5: segmentation round-trip: joining the TTS chunks of any text
reproduces the words of the text, and joining the pause segments of any
script reproduces the words of the script with its pause markers removed
(each marker replaced by whitespace). -/
theorem C5_segmentation_roundtrip :
    (∀ (text : List Char) (maxc : ℕ),
        pyWords (intercalateSpace (chunkTextForTTS text maxc)) = pyWords text) ∧
      ∀ script : List Char,
        pyWords (intercalateSpace (pauseSegments script)) =
          pyWords (removePauseMarkers script) :=
  ⟨chunkTextForTTS_words, pauseSegments_words⟩

/-- C6 counterexample: a six-character single word with `max_chars = 5` is
returned as one oversized chunk (the word loop never hard-wraps an over-long
word), and the empty text yields a single empty chunk. -/
theorem C6_counterexample :
    chunkTextForTTS "aaaaaa".data 5 = ["aaaaaa".data] ∧
      ("aaaaaa".data).length = 6 ∧ ¬(6 ≤ 5) ∧
      chunkTextForTTS [] 5 = [[]] :=
  ⟨by decide, by decide, by decide, by decide⟩

/-- C6 (amended): every chunk is non-empty provided the input text is
non-empty, and every chunk either fits the `max_chars` bound or is a single
whitespace-free word (an over-long word is passed through unsplit rather
than hard-wrapped). -/
theorem C6_chunk_bounds (text : List Char) (maxc : ℕ) (c : List Char)
    (hc : c ∈ chunkTextForTTS text maxc) :
    (text ≠ [] → c ≠ []) ∧ (c.length ≤ maxc ∨ ∀ ch ∈ c, isSpace ch = false) := by
  rw [chunkTextForTTS] at hc
  by_cases h : text.length ≤ maxc
  · rw [if_pos h] at hc
    have hct : c = text := by simpa using hc
    subst hct
    exact ⟨fun h' => h', Or.inl h⟩
  · rw [if_neg h] at hc
    have := chunkLoop_inv maxc (splitSentencesTTS text) [] (Or.inl (by simp)) c hc
    exact ⟨fun _ => this.1, this.2⟩

theorem C6_chunk_bounds_witness :
    "hello it".data ∈ chunkTextForTTS "hello it is".data 8 ∧
      (("hello it is".data ≠ [] → "hello it".data ≠ []) ∧
        (("hello it".data).length ≤ 8 ∨ ∀ ch ∈ "hello it".data, isSpace ch = false)) :=
  ⟨by decide, C6_chunk_bounds "hello it is".data 8 "hello it".data (by decide)⟩

/-- C7: pause-structure invariant: every pause segment is non-empty (also
after trimming), and the assembled parts place a silence clip only strictly
between two speech segments — never two silences adjacent, never a silence
first or last. -/
theorem C7_pause_structure (script : List Char) :
    (∀ s ∈ pauseSegments script, s ≠ [] ∧ pyStrip s ≠ []) ∧
      (buildParts (pauseSegments script)).Chain'
        (fun a b => ¬(a = TrackPart.silence ∧ b = TrackPart.silence)) ∧
      (buildParts (pauseSegments script)).head? ≠ some TrackPart.silence ∧
      (buildParts (pauseSegments script)).getLast? ≠ some TrackPart.silence := by
  refine ⟨pauseSegments_sane script, buildParts_chain _, ?_, buildParts_getLast _⟩
  cases h : pauseSegments script with
  | nil => simp [buildParts]
  | cons s rest =>
    rw [buildParts_head_speech s rest]
    simp

/-- C8 counterexample: with the primary render failing but both
specification fallback tiers available, the code reports the render failure
immediately; the spec-modelled fallback renderer would have succeeded. -/
theorem C8_counterexample :
    (generateSpeechModel oracleRenderFail "Hello there.".data "onyx" 1 "mp4"
        "regular").1 =
      ⟨false, some "Failed to create video - FFmpeg error", none⟩ ∧
      oracleRenderFail.waveformOk = true ∧ oracleRenderFail.flatOk = true ∧
      renderWithFallbacksSpec oracleRenderFail = true := by
  refine ⟨?_, rfl, rfl, rfl⟩
  have hpre : preprocessTextForTTS "Hello there.".data = "Hello there.".data := by decide
  have hsp : synthPhase oracleRenderFail "Hello there.".data "regular" =
      (some (oracleRenderFail.partDur 0), [ExtCall.tts, ExtCall.probe]) := by
    rw [synthPhase, if_neg (by decide), if_neg (by decide), if_pos (by decide)]
  rw [generateSpeechModel, if_neg (by decide), if_neg (by decide), if_neg (by decide),
    if_neg (by push_neg; constructor <;> norm_num), if_neg (by decide),
    afterValidation, hpre, hsp, outputPhase,
    if_pos (rfl : ("mp4" : String) = "mp4"),
    if_neg (by decide : ¬(createVideoWithAudio oracleRenderFail = true))]

/-- C8 (amended): there are no fallback tiers: an mp4 request performs at
most one render call, and whenever that single render attempt fails the
whole request is reported as a failure — the waveform/flat-color outcomes
are never consulted. -/
theorem C8_single_render (o : Oracle) (text : List Char) (voice : String)
    (speed : ℚ) (genType : String) :
    (generateSpeechModel o text voice speed "mp4" genType).2.count ExtCall.render ≤ 1 ∧
      (o.renderOk = false →
        (generateSpeechModel o text voice speed "mp4" genType).1.success = false) := by
  rw [generateSpeechModel]
  by_cases h1 : !o.clientOk
  · rw [if_pos h1]; exact ⟨by simp, fun _ => rfl⟩
  rw [if_neg h1]
  by_cases h2 : text.isEmpty ∨ (pyStrip text).isEmpty
  · rw [if_pos h2]; exact ⟨by simp, fun _ => rfl⟩
  rw [if_neg h2]
  by_cases h3 : voice ∉ availableVoices
  · rw [if_pos h3]; exact ⟨by simp, fun _ => rfl⟩
  rw [if_neg h3]
  by_cases h4 : ¬((1/4 : ℚ) ≤ speed ∧ speed ≤ 4)
  · rw [if_pos h4]; exact ⟨by simp, fun _ => rfl⟩
  rw [if_neg h4]
  by_cases h5 : ("mp4" : String) ∉ supportedFormats
  · rw [if_pos h5]; exact ⟨by simp, fun _ => rfl⟩
  rw [if_neg h5, afterValidation]
  cases hs : synthPhase o (preprocessTextForTTS text) genType with
  | mk od calls =>
    have hnr : ExtCall.render ∉ calls := by
      have := synthPhase_no_render o (preprocessTextForTTS text) genType
      rw [hs] at this
      exact this
    have hcount : calls.count ExtCall.render = 0 := List.count_eq_zero.mpr hnr
    cases od with
    | none => rw [outputPhase]; exact ⟨by simp [hcount], fun _ => rfl⟩
    | some dur =>
      rw [outputPhase, if_pos (rfl : ("mp4" : String) = "mp4")]
      by_cases hr : createVideoWithAudio o
      · rw [if_pos hr]
        refine ⟨by simp [List.count_append, hcount], ?_⟩
        intro hfalse
        exact absurd hr (by simp [createVideoWithAudio, hfalse])
      · rw [if_neg hr]
        exact ⟨by simp [List.count_append, hcount], fun _ => rfl⟩

theorem C8_single_render_witness :
    (generateSpeechModel oracleRenderFail "Hello there.".data "onyx" 1 "mp4"
        "regular").2.count ExtCall.render ≤ 1 ∧
      (generateSpeechModel oracleRenderFail "Hello there.".data "onyx" 1 "mp4"
        "regular").1.success = false :=
  ⟨(C8_single_render oracleRenderFail "Hello there.".data "onyx" 1 "regular").1,
    (C8_single_render oracleRenderFail "Hello there.".data "onyx" 1 "regular").2 rfl⟩

/-- C9: validation precedes any external call: a blank text, an unsupported
voice, an out-of-range speed or an unsupported format makes `generate_speech`
return a structured failure with an error message and an empty external-call
log — no synthesis, probe, or render call is performed. -/
theorem C9_validation_first (o : Oracle) (text : List Char) (voice : String)
    (speed : ℚ) (format genType : String)
    (hbad : pyStrip text = [] ∨ voice ∉ availableVoices ∨
      ¬((1/4 : ℚ) ≤ speed ∧ speed ≤ 4) ∨ format ∉ supportedFormats) :
    (generateSpeechModel o text voice speed format genType).1.success = false ∧
      (generateSpeechModel o text voice speed format genType).1.error ≠ none ∧
      (generateSpeechModel o text voice speed format genType).2 = [] := by
  rw [generateSpeechModel]
  by_cases h1 : !o.clientOk
  · rw [if_pos h1]; exact ⟨rfl, by simp, rfl⟩
  rw [if_neg h1]
  by_cases h2 : text.isEmpty ∨ (pyStrip text).isEmpty
  · rw [if_pos h2]; exact ⟨rfl, by simp, rfl⟩
  rw [if_neg h2]
  by_cases h3 : voice ∉ availableVoices
  · rw [if_pos h3]; exact ⟨rfl, by simp, rfl⟩
  rw [if_neg h3]
  by_cases h4 : ¬((1/4 : ℚ) ≤ speed ∧ speed ≤ 4)
  · rw [if_pos h4]; exact ⟨rfl, by simp, rfl⟩
  rw [if_neg h4]
  by_cases h5 : format ∉ supportedFormats
  · rw [if_pos h5]; exact ⟨rfl, by simp, rfl⟩
  exfalso
  push_neg at h2
  rcases hbad with hb | hb | hb | hb
  · exact absurd hb (by simpa [List.isEmpty_iff] using h2.2)
  · exact h3 hb
  · exact h4 hb
  · exact h5 hb

theorem C9_validation_first_witness :
    (pyStrip "Hello.".data = [] ∨ "bob" ∉ availableVoices ∨
      ¬((1/4 : ℚ) ≤ 1 ∧ (1 : ℚ) ≤ 4) ∨ "mp3" ∉ supportedFormats) ∧
      ((generateSpeechModel oracleAllOk "Hello.".data "bob" 1 "mp3"
          "regular").1.success = false ∧
        (generateSpeechModel oracleAllOk "Hello.".data "bob" 1 "mp3"
          "regular").1.error ≠ none ∧
        (generateSpeechModel oracleAllOk "Hello.".data "bob" 1 "mp3"
          "regular").2 = []) :=
  ⟨Or.inr (Or.inl (by decide)),
    C9_validation_first oracleAllOk "Hello.".data "bob" 1 "mp3" "regular"
      (Or.inr (Or.inl (by decide)))⟩

/-- C10: degenerate inputs: an empty or whitespace-only text, or a
non-positive audio duration, makes the caption-timing operation return the
empty list without error and without any fallback caption. -/
theorem C10_degenerate (text : List Char) (dur : ℚ) (maxc : ℕ)
    (h : pyStrip text = [] ∨ dur ≤ 0) :
    splitTextIntoTimedSections text dur maxc = [] := by
  rw [splitTextIntoTimedSections]
  rcases h with h | h
  · by_cases h1 : text.isEmpty ∨ dur ≤ 0
    · rw [if_pos h1]
    · rw [if_neg h1, if_pos (by simp [h])]
  · rw [if_pos (Or.inr h)]

theorem C10_degenerate_witness :
    (pyStrip " ".data = [] ∨ (5 : ℚ) ≤ 0) ∧
      splitTextIntoTimedSections " ".data 5 120 = [] :=
  ⟨Or.inl (by decide), C10_degenerate " ".data 5 120 (Or.inl (by decide))⟩

end Voiceover
